import Mathlib

/-!
Verification of the JSON-ABI → Solidity interface expander of
`crates/sol-macro/src/json.rs`.

The functions `expand`, `tokens_for_sol`, `abi_to_sol` and `dedup_abi`
are embedded from `json.rs`.  The ABI data model (`JsonAbi`, `Param`,
`ContractObject`, ...) lives in the sibling `alloy-json-abi` crate of the
same repository, which is not among the sources under verification; those
definitions are modelled from the specification (§3, §6).  External
collaborators (the `to_sol` renderer, the `syn` parsers, the downstream
`sol!` expander, the JSON pretty-printer) are kept abstract: the embedded
driver is parameterised over them, so every theorem below holds for every
behaviour of those collaborators.
-/

namespace AbiGen

/-- Modelled from the spec: the ABI type grammar (§3, `TypeDescriptor`) of
the `alloy-json-abi` crate, which is not among the sources under
verification.  An array carries its dimension list in outer-to-inner
textual order; `none` is an unbounded dimension, `some k` a bounded one. -/
inductive TypeDescriptor where
  | elementary (s : String)
  | tuple (components : List TypeDescriptor)
  | array (inner : TypeDescriptor) (dims : List (Option Nat))

mutual

/-- Boolean structural equality on `TypeDescriptor`. -/
def tdBeq : TypeDescriptor → TypeDescriptor → Bool
  | .elementary a, .elementary b => a == b
  | .tuple a, .tuple b => tdListBeq a b
  | .array i d, .array j e => tdBeq i j && d == e
  | _, _ => false

/-- Boolean structural equality on lists of `TypeDescriptor`. -/
def tdListBeq : List TypeDescriptor → List TypeDescriptor → Bool
  | [], [] => true
  | a :: as, b :: bs => tdBeq a b && tdListBeq as bs
  | _, _ => false

end

mutual

theorem tdBeq_iff : ∀ a b : TypeDescriptor, tdBeq a b = true ↔ a = b
  | .elementary a, .elementary b => by simp [tdBeq]
  | .tuple a, .tuple b => by simp [tdBeq, tdListBeq_iff a b]
  | .array i d, .array j e => by simp [tdBeq, tdBeq_iff i j]
  | .elementary _, .tuple _ => by simp [tdBeq]
  | .elementary _, .array _ _ => by simp [tdBeq]
  | .tuple _, .elementary _ => by simp [tdBeq]
  | .tuple _, .array _ _ => by simp [tdBeq]
  | .array _ _, .elementary _ => by simp [tdBeq]
  | .array _ _, .tuple _ => by simp [tdBeq]

theorem tdListBeq_iff : ∀ a b : List TypeDescriptor, tdListBeq a b = true ↔ a = b
  | [], [] => by simp [tdListBeq]
  | a :: as, b :: bs => by simp [tdListBeq, tdBeq_iff a b, tdListBeq_iff as bs]
  | [], _ :: _ => by simp [tdListBeq]
  | _ :: _, [] => by simp [tdListBeq]

end

instance : DecidableEq TypeDescriptor := fun a b =>
  decidable_of_iff (tdBeq a b = true) (tdBeq_iff a b)

/-- Textual form of one array dimension: `[]` when unbounded, `[k]` when
bounded by `k`. -/
def dimString : Option Nat → String
  | none => "[]"
  | some k => "[" ++ toString k ++ "]"

mutual

/-- Modelled from the spec: the canonical ABI type string (glossary:
parenthesized, comma-separated rendering of a type, tuples expanded),
which is computed by the `alloy-json-abi` crate, not by `json.rs`. -/
def canonicalString : TypeDescriptor → String
  | .elementary s => s
  | .tuple cs => "(" ++ canonicalInner cs ++ ")"
  | .array inner dims => canonicalString inner ++ String.join (dims.map dimString)

/-- Comma-separated canonical strings of a tuple's components. -/
def canonicalInner : List TypeDescriptor → String
  | [] => ""
  | [t] => canonicalString t
  | t :: ts => canonicalString t ++ "," ++ canonicalInner ts

end

/-- Modelled from the spec: `alloy-json-abi`'s `Param` (§3): a name
(possibly empty), a type descriptor (tuple components are carried by the
descriptor itself), and an optional internal-type annotation. -/
structure Param where
  name : String
  ty : TypeDescriptor
  internalType : Option String
deriving DecidableEq

/-- Modelled from the spec: `alloy-json-abi`'s `EventParam` (§3): a
`Param` together with an `indexed` flag. -/
structure EventParam where
  name : String
  ty : TypeDescriptor
  indexed : Bool
  internalType : Option String
deriving DecidableEq

/-- Modelled from the spec: the four state-mutability forms (§3). -/
inductive StateMutability where
  | pure
  | view
  | nonpayable
  | payable
deriving DecidableEq

/-- Modelled from the spec: `alloy-json-abi`'s `Function` entry (§3). -/
structure Function where
  name : String
  inputs : List Param
  outputs : List Param
  stateMutability : StateMutability
deriving DecidableEq

/-- Modelled from the spec: `alloy-json-abi`'s `Event` entry (§3). -/
structure Event where
  name : String
  inputs : List EventParam
  anonymous : Bool
deriving DecidableEq

/-- Modelled from the spec: `alloy-json-abi`'s `Error` entry (§3). -/
structure Error where
  name : String
  inputs : List Param
deriving DecidableEq

/-- Modelled from the spec: the constructor entry (§3). -/
structure Constructor where
  inputs : List Param
  stateMutability : StateMutability
deriving DecidableEq

/-- Modelled from the spec: the fallback entry (§3). -/
structure Fallback where
  stateMutability : StateMutability
deriving DecidableEq

/-- Modelled from the spec: the receive entry (§3). -/
structure Receive where
  stateMutability : StateMutability
deriving DecidableEq

/-- Modelled from the spec: `alloy-json-abi`'s `JsonAbi` (§3): ordered
maps (embedded as association lists in iteration order) from name to the
ordered bucket of same-named entries, plus at most one
constructor/fallback/receive each. -/
structure JsonAbi where
  constructor_ : Option Constructor
  fallback : Option Fallback
  receive : Option Receive
  functions : List (String × List Function)
  errors : List (String × List Error)
  events : List (String × List Event)
deriving DecidableEq

/-- Modelled from the spec: `alloy-json-abi`'s `ContractObject` (§6): an
optional ABI plus optional compiled and deployed bytecode blobs, the
blobs carried as opaque hex strings (§3). -/
structure ContractObject where
  abi : Option JsonAbi
  bytecode : Option String
  deployedBytecode : Option String
deriving DecidableEq

/-- Rust `Vec::dedup_by` walk: `prev` is the most recently retained
element; a candidate `same` as it is dropped, otherwise the candidate is
retained and becomes the new `prev`.  As in Rust, `same` receives the
candidate first and the retained element second. -/
def dedupByGo {α : Type*} (same : α → α → Bool) (prev : α) : List α → List α
  | [] => []
  | y :: ys => if same y prev then dedupByGo same prev ys else y :: dedupByGo same y ys

/-- Rust `Vec::dedup_by`: removes all but the first of every run of
consecutive elements related by `same`. -/
def dedupBy {α : Type*} (same : α → α → Bool) : List α → List α
  | [] => []
  | x :: xs => x :: dedupByGo same x xs

/-- `Vec::dedup_by` with a fallible comparison: a `none` comparison
models a panic (the `assert_eq!` of `dedup_abi`'s closure) and aborts the
whole walk. -/
def dedupByCheckedGo {α : Type*} (same : α → α → Option Bool) (prev : α) :
    List α → Option (List α)
  | [] => some []
  | y :: ys =>
    match same y prev with
    | none => none
    | some true => dedupByCheckedGo same prev ys
    | some false => (dedupByCheckedGo same y ys).map (y :: ·)

/-- Top level of the fallible `Vec::dedup_by`. -/
def dedupByChecked {α : Type*} (same : α → α → Option Bool) : List α → Option (List α)
  | [] => some []
  | x :: xs => (dedupByCheckedGo same x xs).map (x :: ·)

/-- The specification's dedup rule (§4.1), stated in its own words: walk
the sequence in order and drop every entry that is `same` as its
immediate predecessor in the original sequence. -/
def dropAdjGo {α : Type*} (same : α → α → Bool) (prev : α) : List α → List α
  | [] => []
  | y :: ys => if same y prev then dropAdjGo same y ys else y :: dropAdjGo same y ys

/-- Top level of the specification's dedup rule. -/
def dropAdjDup {α : Type*} (same : α → α → Bool) : List α → List α
  | [] => []
  | x :: xs => x :: dropAdjGo same x xs

theorem dedupByGo_eq_dropAdjGo {α β : Type*} [BEq β] [LawfulBEq β] (key : α → β) :
    ∀ (l : List α) (prev prev' : α), key prev = key prev' →
      dedupByGo (fun a b => key a == key b) prev l =
        dropAdjGo (fun a b => key a == key b) prev' l
  | [], _, _, _ => rfl
  | y :: ys, prev, prev', h => by
    simp only [dedupByGo, dropAdjGo, h]
    by_cases hy : key y = key prev'
    · simp only [hy, beq_self_eq_true, if_true]
      exact dedupByGo_eq_dropAdjGo key ys prev y (h.trans hy.symm)
    · simp only [beq_eq_false_iff_ne.mpr hy, Bool.false_eq_true, if_false]
      rw [dedupByGo_eq_dropAdjGo key ys y y rfl]

theorem dedupBy_eq_dropAdjDup {α β : Type*} [BEq β] [LawfulBEq β] (key : α → β)
    (l : List α) :
    dedupBy (fun a b => key a == key b) l = dropAdjDup (fun a b => key a == key b) l := by
  cases l with
  | nil => rfl
  | cons x xs =>
    simp only [dedupBy, dropAdjDup]
    rw [dedupByGo_eq_dropAdjGo key xs x x rfl]

theorem dedupByCheckedGo_eq {α : Type*} (same? : α → α → Option Bool)
    (same : α → α → Bool) (P : α → Prop)
    (hc : ∀ a b, P a → P b → same? a b = some (same a b)) :
    ∀ (l : List α) (prev : α), P prev → (∀ a ∈ l, P a) →
      dedupByCheckedGo same? prev l = some (dedupByGo same prev l)
  | [], _, _, _ => rfl
  | y :: ys, prev, hp, hl => by
    have hy : P y := hl y (by simp)
    have hys : ∀ a ∈ ys, P a := fun a ha => hl a (by simp [ha])
    simp only [dedupByCheckedGo, dedupByGo, hc y prev hy hp]
    cases hsame : same y prev with
    | false =>
      simp only [Bool.false_eq_true, if_false]
      rw [dedupByCheckedGo_eq same? same P hc ys y hy hys]
      rfl
    | true =>
      simp only [if_true]
      exact dedupByCheckedGo_eq same? same P hc ys prev hp hys

theorem dedupByChecked_eq {α : Type*} (same? : α → α → Option Bool)
    (same : α → α → Bool) (P : α → Prop)
    (hc : ∀ a b, P a → P b → same? a b = some (same a b))
    (l : List α) (hl : ∀ a ∈ l, P a) :
    dedupByChecked same? l = some (dedupBy same l) := by
  cases l with
  | nil => rfl
  | cons x xs =>
    have hx : P x := hl x (by simp)
    have hxs : ∀ a ∈ xs, P a := fun a ha => hl a (by simp [ha])
    simp only [dedupByChecked, dedupBy]
    rw [dedupByCheckedGo_eq same? same P hc xs x hx hxs]
    rfl

theorem dedupByCheckedGo_some_eq {α : Type*} (same? : α → α → Option Bool)
    (same : α → α → Bool)
    (hc : ∀ a b r, same? a b = some r → r = same a b) :
    ∀ (l : List α) (prev : α) (out : List α),
      dedupByCheckedGo same? prev l = some out → out = dedupByGo same prev l
  | [], _, out, h => by
    simp only [dedupByCheckedGo, Option.some.injEq] at h
    simp [dedupByGo, ← h]
  | y :: ys, prev, out, h => by
    simp only [dedupByCheckedGo] at h
    cases hs : same? y prev with
    | none => rw [hs] at h; exact absurd h (by simp)
    | some r =>
      rw [hs] at h
      have hr := hc y prev r hs
      cases r with
      | true =>
        simp only [dedupByGo, ← hr]
        simp only [if_true]
        exact dedupByCheckedGo_some_eq same? same hc ys prev out h
      | false =>
        simp only [Option.map_eq_some'] at h
        obtain ⟨out', hout', rfl⟩ := h
        simp only [dedupByGo, ← hr, Bool.false_eq_true, if_false, List.cons.injEq, true_and]
        exact dedupByCheckedGo_some_eq same? same hc ys y out' hout'

theorem dedupByChecked_some_eq {α : Type*} (same? : α → α → Option Bool)
    (same : α → α → Bool)
    (hc : ∀ a b r, same? a b = some r → r = same a b)
    (l : List α) (out : List α) (h : dedupByChecked same? l = some out) :
    out = dedupBy same l := by
  cases l with
  | nil => simp only [dedupByChecked, Option.some.injEq] at h; simp [dedupBy, ← h]
  | cons x xs =>
    simp only [dedupByChecked, Option.map_eq_some'] at h
    obtain ⟨out', hout', rfl⟩ := h
    simp only [dedupBy, List.cons.injEq, true_and]
    exact dedupByCheckedGo_some_eq same? same hc xs x out' hout'

theorem dedupByCheckedGo_rerun {α : Type*} (same? : α → α → Option Bool) :
    ∀ (l : List α) (prev : α) (out : List α),
      dedupByCheckedGo same? prev l = some out →
        dedupByCheckedGo same? prev out = some out
  | [], _, out, h => by
    simp only [dedupByCheckedGo, Option.some.injEq] at h
    subst h; rfl
  | y :: ys, prev, out, h => by
    simp only [dedupByCheckedGo] at h
    cases hs : same? y prev with
    | none => rw [hs] at h; exact absurd h (by simp)
    | some r =>
      rw [hs] at h
      cases r with
      | true => exact dedupByCheckedGo_rerun same? ys prev out h
      | false =>
        simp only [Option.map_eq_some'] at h
        obtain ⟨out', hout', rfl⟩ := h
        simp only [dedupByCheckedGo, hs]
        rw [dedupByCheckedGo_rerun same? ys y out' hout']
        rfl

theorem dedupByChecked_rerun {α : Type*} (same? : α → α → Option Bool)
    (l out : List α) (h : dedupByChecked same? l = some out) :
    dedupByChecked same? out = some out := by
  cases l with
  | nil =>
    simp only [dedupByChecked, Option.some.injEq] at h
    subst h; rfl
  | cons x xs =>
    simp only [dedupByChecked, Option.map_eq_some'] at h
    obtain ⟨out', hout', rfl⟩ := h
    simp only [dedupByChecked]
    rw [dedupByCheckedGo_rerun same? xs x out' hout']
    rfl

theorem dedupByGo_sublist {α : Type*} (same : α → α → Bool) :
    ∀ (l : List α) (prev : α), (dedupByGo same prev l).Sublist l
  | [], _ => List.Sublist.refl _
  | y :: ys, prev => by
    simp only [dedupByGo]
    by_cases h : same y prev = true
    · simp only [h, if_true]
      exact (dedupByGo_sublist same ys prev).cons y
    · simp only [h, if_false]
      exact (dedupByGo_sublist same ys y).cons₂ y

theorem dedupBy_sublist {α : Type*} (same : α → α → Bool) (l : List α) :
    (dedupBy same l).Sublist l := by
  cases l with
  | nil => exact List.Sublist.refl _
  | cons x xs => exact (dedupByGo_sublist same xs x).cons₂ x

theorem dropAdjGo_append {α : Type*} (same : α → α → Bool) :
    ∀ (l₁ l₂ : List α) (prev : α),
      dropAdjGo same prev (l₁ ++ l₂) =
        dropAdjGo same prev l₁ ++ dropAdjGo same (l₁.getLastD prev) l₂
  | [], _, _ => by simp [dropAdjGo, List.getLastD]
  | y :: ys, l₂, prev => by
    simp only [List.cons_append, dropAdjGo, List.getLastD_cons, List.append_eq]
    by_cases h : same y prev = true
    · rw [if_pos h, if_pos h, dropAdjGo_append same ys l₂ y]
    · rw [if_neg h, if_neg h, dropAdjGo_append same ys l₂ y, List.cons_append]

theorem dropAdjDup_append {α : Type*} (same : α → α → Bool) (x : α) (xs l₂ : List α) :
    dropAdjDup same (x :: (xs ++ l₂)) =
      dropAdjDup same (x :: xs) ++ dropAdjGo same (xs.getLastD x) l₂ := by
  simp only [dropAdjDup]
  rw [dropAdjGo_append same xs l₂ x, List.cons_append]

/-- The `values_mut()` loop of `dedup_abi`: dedups every bucket of an
ordered name-to-entries map, propagating a panic. -/
def dedupBucketsChecked {α : Type*} (same? : α → α → Option Bool) :
    List (String × List α) → Option (List (String × List α))
  | [] => some []
  | kv :: rest =>
    match dedupByChecked same? kv.2 with
    | none => none
    | some v' => (dedupBucketsChecked same? rest).map ((kv.1, v') :: ·)

/-- Assert-free form of the bucket loop. -/
def dedupBucketsTotal {α : Type*} (same : α → α → Bool)
    (bs : List (String × List α)) : List (String × List α) :=
  bs.map fun kv => (kv.1, dedupBy same kv.2)

/-- The closure produced by the `deduper!` macro of `dedup_abi`
(json.rs:79-86): it asserts that the two entries share a name (`none`
models the `assert_eq!` panic) and then compares their inputs. -/
def checkedSame {α : Type*} (nm : α → String) (same : α → α → Bool) (a b : α) :
    Option Bool :=
  if nm a == nm b then some (same a b) else none

theorem checkedSame_some {α : Type*} (nm : α → String) (same : α → α → Bool)
    (a b : α) (r : Bool) (h : checkedSame nm same a b = some r) : r = same a b := by
  unfold checkedSame at h
  split at h
  · exact (Option.some.injEq _ _ ▸ h).symm
  · exact absurd h (by simp)

theorem dedupBucketsChecked_eq {α : Type*} (nm : α → String) (same : α → α → Bool) :
    ∀ (bs : List (String × List α)),
      (∀ kv ∈ bs, ∀ a ∈ kv.2, nm a = kv.1) →
      dedupBucketsChecked (checkedSame nm same) bs = some (dedupBucketsTotal same bs)
  | [], _ => rfl
  | kv :: rest, h => by
    have hkv : ∀ a ∈ kv.2, nm a = kv.1 := h kv (by simp)
    have hrest : ∀ kv' ∈ rest, ∀ a ∈ kv'.2, nm a = kv'.1 :=
      fun kv' hkv' => h kv' (by simp [hkv'])
    simp only [dedupBucketsChecked, dedupBucketsTotal, List.map_cons]
    rw [dedupByChecked_eq (checkedSame nm same) same (fun a => nm a = kv.1)
      (fun a b ha hb => by simp [checkedSame, ha, hb]) kv.2 hkv]
    rw [dedupBucketsChecked_eq nm same rest hrest]
    rfl

theorem dedupBucketsChecked_some_eq {α : Type*} (nm : α → String) (same : α → α → Bool) :
    ∀ (bs out : List (String × List α)),
      dedupBucketsChecked (checkedSame nm same) bs = some out →
      out = dedupBucketsTotal same bs
  | [], out, h => by
    simp only [dedupBucketsChecked, Option.some.injEq] at h
    simp [dedupBucketsTotal, ← h]
  | kv :: rest, out, h => by
    simp only [dedupBucketsChecked] at h
    cases hv : dedupByChecked (checkedSame nm same) kv.2 with
    | none => rw [hv] at h; exact absurd h (by simp)
    | some v' =>
      rw [hv] at h
      simp only [Option.map_eq_some'] at h
      obtain ⟨out', hout', rfl⟩ := h
      simp only [dedupBucketsTotal, List.map_cons, List.cons.injEq]
      refine ⟨?_, dedupBucketsChecked_some_eq nm same rest out' hout'⟩
      rw [dedupByChecked_some_eq (checkedSame nm same) same
        (checkedSame_some nm same · · ·) kv.2 v' hv]

theorem dedupBucketsChecked_rerun {α : Type*} (same? : α → α → Option Bool) :
    ∀ (bs out : List (String × List α)),
      dedupBucketsChecked same? bs = some out →
      dedupBucketsChecked same? out = some out
  | [], out, h => by
    simp only [dedupBucketsChecked, Option.some.injEq] at h
    subst h; rfl
  | kv :: rest, out, h => by
    simp only [dedupBucketsChecked] at h
    cases hv : dedupByChecked same? kv.2 with
    | none => rw [hv] at h; exact absurd h (by simp)
    | some v' =>
      rw [hv] at h
      simp only [Option.map_eq_some'] at h
      obtain ⟨out', hout', rfl⟩ := h
      simp only [dedupBucketsChecked]
      rw [dedupByChecked_rerun same? kv.2 v' hv]
      rw [dedupBucketsChecked_rerun same? rest out' hout']
      rfl

theorem dedupBucketsTotal_keys {α : Type*} (same : α → α → Bool)
    (bs : List (String × List α)) :
    (dedupBucketsTotal same bs).map Prod.fst = bs.map Prod.fst := by
  simp [dedupBucketsTotal, List.map_map, Function.comp]

/-- Canonical ABI type string of a parameter. -/
def Param.canonicalTy (p : Param) : String := canonicalString p.ty

/-- Canonical ABI type string of an event parameter. -/
def EventParam.canonicalTy (p : EventParam) : String := canonicalString p.ty

/-- Canonical input-type strings of a function entry. -/
def fnKey (f : Function) : List String := f.inputs.map Param.canonicalTy

/-- Canonical input-type strings of an error entry. -/
def errKey (e : Error) : List String := e.inputs.map Param.canonicalTy

/-- Canonical input-type strings of an event entry. -/
def evKey (e : Event) : List String := e.inputs.map EventParam.canonicalTy

/-- Modelled from the spec: the `a.inputs == b.inputs` comparison of
`dedup_abi`'s closure, for function entries.  `Param` equality lives in
the `alloy-json-abi` crate, outside the sources under verification; §4.1
specifies it as structural over `TypeDescriptor`, with parameter names
and internal-type annotations ignored — only the canonical ABI type
string matters. -/
def fnSame (a b : Function) : Bool := fnKey a == fnKey b

/-- Modelled from the spec: input comparison for error entries (§4.1). -/
def errSame (a b : Error) : Bool := errKey a == errKey b

/-- Modelled from the spec: input comparison for event entries (§4.1). -/
def evSame (a b : Event) : Bool := evKey a == evKey b

/-- The `deduper!` closure instantiated at function entries. -/
def fnSameChecked : Function → Function → Option Bool := checkedSame Function.name fnSame

/-- The `deduper!` closure instantiated at error entries. -/
def errSameChecked : Error → Error → Option Bool := checkedSame Error.name errSame

/-- The `deduper!` closure instantiated at event entries. -/
def evSameChecked : Event → Event → Option Bool := checkedSame Event.name evSame

/-- `dedup_abi` (json.rs:78-96): dedups every `functions`, `errors` and
`events` bucket in place with `Vec::dedup_by` and the `deduper!` closure;
the `none` result models the closure's `assert_eq!` panic, which cannot
fire on well-formed documents (`wfAbi`). -/
def dedup_abi (abi : JsonAbi) : Option JsonAbi :=
  match dedupBucketsChecked fnSameChecked abi.functions with
  | none => none
  | some fs =>
    match dedupBucketsChecked errSameChecked abi.errors with
    | none => none
    | some ers =>
      match dedupBucketsChecked evSameChecked abi.events with
      | none => none
      | some evs => some { abi with functions := fs, errors := ers, events := evs }

/-- Assert-free form of `dedup_abi`; it agrees with `dedup_abi` whenever
the latter succeeds (`dedup_abi_some_eq_total`). -/
def dedupAbiTotal (abi : JsonAbi) : JsonAbi :=
  { abi with
    functions := dedupBucketsTotal fnSame abi.functions
    errors := dedupBucketsTotal errSame abi.errors
    events := dedupBucketsTotal evSame abi.events }

/-- Well-formedness of the bucket maps (§3): every entry of a bucket
carries the bucket's name.  `JsonAbi` deserialization groups entries by
name, so every parsed document satisfies this. -/
def wfAbi (abi : JsonAbi) : Bool :=
  (abi.functions.all fun kv => kv.2.all fun f => f.name == kv.1) &&
  (abi.errors.all fun kv => kv.2.all fun e => e.name == kv.1) &&
  (abi.events.all fun kv => kv.2.all fun e => e.name == kv.1)

theorem wfAbi_buckets (abi : JsonAbi) (h : wfAbi abi = true) :
    (∀ kv ∈ abi.functions, ∀ a ∈ kv.2, a.name = kv.1) ∧
    (∀ kv ∈ abi.errors, ∀ a ∈ kv.2, a.name = kv.1) ∧
    (∀ kv ∈ abi.events, ∀ a ∈ kv.2, a.name = kv.1) := by
  simp only [wfAbi, Bool.and_eq_true, List.all_eq_true, beq_iff_eq] at h
  exact ⟨h.1.1, h.1.2, h.2⟩

theorem dedup_abi_eq_total (abi : JsonAbi) (h : wfAbi abi = true) :
    dedup_abi abi = some (dedupAbiTotal abi) := by
  obtain ⟨hf, he, hv⟩ := wfAbi_buckets abi h
  unfold dedup_abi fnSameChecked errSameChecked evSameChecked
  rw [dedupBucketsChecked_eq Function.name fnSame abi.functions hf]
  rw [dedupBucketsChecked_eq Error.name errSame abi.errors he]
  rw [dedupBucketsChecked_eq Event.name evSame abi.events hv]
  rfl

theorem dedup_abi_some_eq_total (abi out : JsonAbi) (h : dedup_abi abi = some out) :
    out = dedupAbiTotal abi := by
  unfold dedup_abi at h
  cases hf : dedupBucketsChecked fnSameChecked abi.functions with
  | none => rw [hf] at h; exact absurd h (by simp)
  | some fs =>
    rw [hf] at h
    cases he : dedupBucketsChecked errSameChecked abi.errors with
    | none => rw [he] at h; exact absurd h (by simp)
    | some ers =>
      rw [he] at h
      cases hv : dedupBucketsChecked evSameChecked abi.events with
      | none => rw [hv] at h; exact absurd h (by simp)
      | some evs =>
        rw [hv] at h
        simp only [Option.some.injEq] at h
        subst h
        unfold dedupAbiTotal
        rw [← dedupBucketsChecked_some_eq Function.name fnSame abi.functions fs hf]
        rw [← dedupBucketsChecked_some_eq Error.name errSame abi.errors ers he]
        rw [← dedupBucketsChecked_some_eq Event.name evSame abi.events evs hv]

theorem dedup_abi_rerun (abi out : JsonAbi) (h : dedup_abi abi = some out) :
    dedup_abi out = some out := by
  unfold dedup_abi at h
  cases hf : dedupBucketsChecked fnSameChecked abi.functions with
  | none => rw [hf] at h; exact absurd h (by simp)
  | some fs =>
    rw [hf] at h
    cases he : dedupBucketsChecked errSameChecked abi.errors with
    | none => rw [he] at h; exact absurd h (by simp)
    | some ers =>
      rw [he] at h
      cases hv : dedupBucketsChecked evSameChecked abi.events with
      | none => rw [hv] at h; exact absurd h (by simp)
      | some evs =>
        rw [hv] at h
        simp only [Option.some.injEq] at h
        subst h
        unfold dedup_abi
        rw [dedupBucketsChecked_rerun fnSameChecked abi.functions fs hf]
        rw [dedupBucketsChecked_rerun errSameChecked abi.errors ers he]
        rw [dedupBucketsChecked_rerun evSameChecked abi.events evs hv]

/-- Does the first list lead (start) the second? -/
def listLeads : List Char → List Char → Bool
  | [], _ => true
  | _ :: _, [] => false
  | a :: as, b :: bs => a == b && listLeads as bs

/-- Does `sub` occur as a contiguous run inside the second list? -/
def listOccurs (sub : List Char) : List Char → Bool
  | [] => listLeads sub []
  | b :: bs => listLeads sub (b :: bs) || listOccurs sub bs

/-- Does the string `sub` occur inside `s`? -/
def strHasSub (s sub : String) : Bool := listOccurs sub.data s.data

theorem listLeads_append_self : ∀ (sub r : List Char), listLeads sub (sub ++ r) = true
  | [], _ => rfl
  | a :: as, r => by simp [listLeads, listLeads_append_self as r]

theorem listLeads_append_left : ∀ (sub l r : List Char),
    listLeads sub l = true → listLeads sub (l ++ r) = true
  | [], _, _, _ => rfl
  | _ :: _, [], _, h => by simp [listLeads] at h
  | a :: as, b :: bs, r, h => by
    simp only [listLeads, Bool.and_eq_true] at h ⊢
    exact ⟨h.1, listLeads_append_left as bs r h.2⟩

theorem listOccurs_of_leads (sub l : List Char) (h : listLeads sub l = true) :
    listOccurs sub l = true := by
  cases l with
  | nil => simpa [listOccurs] using h
  | cons b bs => simp [listOccurs, h]

theorem listOccurs_append_right : ∀ (sub l r : List Char),
    listOccurs sub r = true → listOccurs sub (l ++ r) = true
  | _, [], _, h => h
  | sub, b :: bs, r, h => by
    simp only [List.cons_append, listOccurs, Bool.or_eq_true]
    exact Or.inr (listOccurs_append_right sub bs r h)

theorem listOccurs_append_left : ∀ (sub l r : List Char),
    listOccurs sub l = true → listOccurs sub (l ++ r) = true
  | sub, [], r, h => by
    simp only [listOccurs] at h
    cases sub with
    | nil => cases r with
      | nil => rfl
      | cons c cs => simp [listOccurs, listLeads]
    | cons a as => simp [listLeads] at h
  | sub, b :: bs, r, h => by
    simp only [listOccurs, Bool.or_eq_true] at h
    simp only [List.cons_append, listOccurs, Bool.or_eq_true]
    cases h with
    | inl h => exact Or.inl (listLeads_append_left sub (b :: bs) r h)
    | inr h => exact Or.inr (listOccurs_append_left sub bs r h)

theorem strHasSub_sandwich (a s b : String) : strHasSub (a ++ s ++ b) s = true := by
  simp only [strHasSub, String.data_append, List.append_assoc]
  exact listOccurs_append_right s.data a.data (s.data ++ b.data)
    (listOccurs_of_leads s.data (s.data ++ b.data) (listLeads_append_self s.data b.data))

theorem strHasSub_of_left (a b sub : String) (h : strHasSub a sub = true) :
    strHasSub (a ++ b) sub = true := by
  simp only [strHasSub, String.data_append]
  exact listOccurs_append_left sub.data a.data b.data h

theorem strHasSub_of_right (a b sub : String) (h : strHasSub b sub = true) :
    strHasSub (a ++ b) sub = true := by
  simp only [strHasSub, String.data_append]
  exact listOccurs_append_right sub.data a.data b.data h

/-- Model of `syn::Error`: the span (the `name` identifier it is anchored
to, modelled by that identifier's text) and the message. -/
structure SynError where
  span : String
  msg : String
deriving DecidableEq

/-- The token triple produced by `tokens_for_sol` (json.rs:70-75): the
literal `interface` keyword, the caller's `name` identifier, and the
token stream parsed from the rendered body starting at its first brace. -/
structure SolTokens where
  kw : String
  name : String
  body : String
deriving DecidableEq

/-- The declaration assembled by the `quote!` block of `expand`
(json.rs:33-38): caller attributes, the generated doc string, the
key/value pairs of the `#[sol(...)]` attribute, and the interface
tokens. -/
structure AssembledDecl where
  attrs : List String
  docStr : String
  solAttrs : List (String × String)
  decl : SolTokens
deriving DecidableEq

/-- External collaborators of `expand` (§6), kept abstract so every
theorem holds for all of their behaviours: the `JsonAbi::to_sol` renderer
of the `alloy-json-abi` crate, `syn::parse_str::<TokenStream>`,
`syn::parse2` into the Solidity AST, the downstream expander
`crate::expand::expand`, and `serde_json::to_string_pretty`. -/
structure ExpandDeps where
  toSol : String → JsonAbi → String
  parseTokenStream : String → Except String Unit
  parseFile : AssembledDecl → Except String Unit
  expandAst : AssembledDecl → Except SynError String
  jsonPretty : JsonAbi → String

/-- The opening brace character. -/
def lbraceChar : Char := Char.ofNat 123

/-- Model of `sol.find('\x7b')` in `tokens_for_sol`: position of the
rendered body's first brace. -/
def findBrace (s : String) : Option Nat := s.data.findIdx? (· == lbraceChar)

/-- Model of `&sol[brace_idx..]`: the rendered body from position `i`
on. -/
def sliceFrom (s : String) (i : Nat) : String := String.mk (s.data.drop i)

/-- The `mk_err` message of `tokens_for_sol` (json.rs:58-65). -/
def mkSolErrMsg (s : String) : String :=
  "`JsonAbi::to_sol` generated invalid Rust tokens: " ++ s ++
    "\nThis is a bug. We would appreciate a bug report: https://github.com/alloy-rs/core/issues/new/choose"

/-- The text reported when the rendered body has no brace
(json.rs:66). -/
def missingBraceText : String := "missing `\x7b`"

/-- The parse-failure message of `expand` (json.rs:41-45). -/
def astErrMsg (e : String) : String :=
  "failed to parse ABI-generated tokens into a Solidity AST: " ++ e ++
    ".\nThis is a bug. We would appreciate a bug report: https://github.com/alloy-rs/core/issues/new/choose"

/-- The missing-ABI message of `expand` (json.rs:9). -/
def abiNotFoundMsg : String := "ABI not found in JSON"

/-- Embedding of `tokens_for_sol` (json.rs:57-76): find the first brace
of the rendered interface, parse the remainder as a Rust token stream,
and prepend the `interface` keyword and the `name` identifier. -/
def tokens_for_sol (deps : ExpandDeps) (name : String) (sol : String) :
    Except SynError SolTokens :=
  match findBrace sol with
  | none => .error ⟨name, mkSolErrMsg missingBraceText⟩
  | some i =>
    match deps.parseTokenStream (sliceFrom sol i) with
    | .error e => .error ⟨name, mkSolErrMsg e⟩
    | .ok _ => .ok ⟨"interface", name, sliceFrom sol i⟩

/-- The generated doc string of `expand` (json.rs:21-32). -/
def mkDocStr (sol jsonS : String) : String :=
  "\n\nGenerated by the following Solidity interface...\n```solidity\n" ++ sol ++
    "\n```\n...which was generated by the following JSON ABI:\n```json\n" ++ jsonS ++ "\n```"

/-- Key/value pairs of the `#[sol(...)]` attribute (json.rs:12-19 and
36): a `bytecode = "<hex>"` pair exactly when a bytecode blob is present,
and a `deployed_bytecode = "<hex>"` pair exactly when a deployed blob is
present. -/
def solAttrPairs (bytecode deployedBytecode : Option String) : List (String × String) :=
  (bytecode.map fun s => ("bytecode", s)).toList ++
    (deployedBytecode.map fun s => ("deployed_bytecode", s)).toList

/-- Embedding of `abi_to_sol` (json.rs:51-54): dedups the ABI in place,
then renders it; the deduped document is also what `expand` later
serializes.  A `none` result models the deduper's `assert_eq!` panic. -/
def abi_to_sol (deps : ExpandDeps) (name : String) (abi : JsonAbi) :
    Option (String × JsonAbi) :=
  match dedup_abi abi with
  | none => none
  | some abi' => some (deps.toSol name abi', abi')

/-- Front half of `expand` (json.rs:6-38): unwrap the ABI, dedup and
render it, build the interface tokens, and assemble the declaration from
the caller attributes, the doc string, the bytecode attribute pairs and
the interface tokens.  A `none` result models the deduper's panic. -/
def expandAssemble (deps : ExpandDeps) (name : String) (json : ContractObject)
    (attrs : List String) : Option (Except SynError AssembledDecl) :=
  match json.abi with
  | none => some (.error ⟨name, abiNotFoundMsg⟩)
  | some abi0 =>
    match abi_to_sol deps name abi0 with
    | none => none
    | some (sol, abi) =>
      match tokens_for_sol deps name sol with
      | .error e => some (.error e)
      | .ok st =>
        some (.ok ⟨attrs, mkDocStr sol (deps.jsonPretty abi),
          solAttrPairs json.bytecode json.deployedBytecode, st⟩)

/-- Embedding of `expand` (json.rs:6-49): assemble the declaration,
re-parse it as a Solidity AST (`syn::parse2`) and hand it to the
downstream expander.  A `none` result models the deduper's panic; all
errors are returned, and no tokens are produced on any error path. -/
def expand (deps : ExpandDeps) (name : String) (json : ContractObject)
    (attrs : List String) : Option (Except SynError String) :=
  match expandAssemble deps name json attrs with
  | none => none
  | some (.error e) => some (.error e)
  | some (.ok asm) =>
    match deps.parseFile asm with
    | .error e => some (.error ⟨name, astErrMsg e⟩)
    | .ok _ => some (deps.expandAst asm)

theorem dedupBy_fnSame_eq (l : List Function) :
    dedupBy fnSame l = dropAdjDup fnSame l :=
  dedupBy_eq_dropAdjDup fnKey l

theorem dedupBy_errSame_eq (l : List Error) :
    dedupBy errSame l = dropAdjDup errSame l :=
  dedupBy_eq_dropAdjDup errKey l

theorem dedupBy_evSame_eq (l : List Event) :
    dedupBy evSame l = dropAdjDup evSame l :=
  dedupBy_eq_dropAdjDup evKey l

theorem dedupByGo_idem {α : Type*} (same : α → α → Bool) :
    ∀ (l : List α) (prev : α),
      dedupByGo same prev (dedupByGo same prev l) = dedupByGo same prev l
  | [], _ => rfl
  | y :: ys, prev => by
    simp only [dedupByGo]
    by_cases h : same y prev = true
    · rw [if_pos h]
      exact dedupByGo_idem same ys prev
    · rw [if_neg h]
      simp only [dedupByGo]
      rw [if_neg h, dedupByGo_idem same ys y]

theorem dedupBy_idem {α : Type*} (same : α → α → Bool) (l : List α) :
    dedupBy same (dedupBy same l) = dedupBy same l := by
  cases l with
  | nil => rfl
  | cons x xs =>
    simp only [dedupBy]
    rw [dedupByGo_idem same xs x]

theorem dedupBucketsTotal_idem {α : Type*} (same : α → α → Bool)
    (bs : List (String × List α)) :
    dedupBucketsTotal same (dedupBucketsTotal same bs) = dedupBucketsTotal same bs := by
  simp only [dedupBucketsTotal, List.map_map]
  exact List.map_congr_left fun kv _ => by
    simp only [Function.comp_apply]
    rw [dedupBy_idem]

theorem listForall₂_map_self {γ : Type*} (f : γ → γ) (R : γ → γ → Prop)
    (h : ∀ x, R (f x) x) : ∀ l : List γ, List.Forall₂ R (l.map f) l
  | [] => List.Forall₂.nil
  | x :: xs => List.Forall₂.cons (h x) (listForall₂_map_self f R h xs)

/-- Elementary-typed parameter with the given name and type spelling. -/
def mkParam (n t : String) : Param := ⟨n, .elementary t, none⟩

/-- Function entry `transfer(address,uint256)`. -/
def exTransferA : Function :=
  ⟨"transfer", [mkParam "to" "address", mkParam "amount" "uint256"], [], .nonpayable⟩

/-- Function entry with the same canonical signature as `exTransferA` but
a different first parameter name, so the two are distinct values with
equal canonical input-type strings. -/
def exTransferA' : Function :=
  ⟨"transfer", [mkParam "dst" "address", mkParam "amount" "uint256"], [], .nonpayable⟩

/-- Function entry `transfer(address,uint256,bytes)`, an overload of
`exTransferA`. -/
def exTransferB : Function :=
  ⟨"transfer", [mkParam "to" "address", mkParam "amount" "uint256",
    mkParam "data" "bytes"], [], .nonpayable⟩

/-- Document holding only the given function buckets. -/
def mkDoc (fs : List (String × List Function)) : JsonAbi := ⟨none, none, none, fs, [], []⟩

/-- C1: for every well-formed `AbiDocument`, normalization walks each
bucket of functions, events and errors in order and drops exactly those
entries whose (name, inputs) equals the immediate predecessor's —
`dedup_abi` returns exactly the bucket-wise immediate-predecessor dropper
`dropAdjDup` — where equality of inputs (`fnSame`/`errSame`/`evSame`) is
decided only by the canonical ABI type string, ignoring parameter names
and internal-type annotations (second conjunct; within a bucket all
entries share the bucket's name, so name equality is vacuous). -/
theorem c1_dedup_drops_adjacent_canonical_duplicates (abi : JsonAbi)
    (h : wfAbi abi = true) :
    dedup_abi abi = some
      { abi with
        functions := abi.functions.map fun kv => (kv.1, dropAdjDup fnSame kv.2)
        errors := abi.errors.map fun kv => (kv.1, dropAdjDup errSame kv.2)
        events := abi.events.map fun kv => (kv.1, dropAdjDup evSame kv.2) } ∧
    (∀ a b : Function, fnSame a b = true ↔
      a.inputs.map Param.canonicalTy = b.inputs.map Param.canonicalTy) := by
  constructor
  · rw [dedup_abi_eq_total abi h]
    have hf : (fun (kv : String × List Function) => (kv.1, dedupBy fnSame kv.2)) =
        fun kv => (kv.1, dropAdjDup fnSame kv.2) :=
      funext fun kv => congrArg (Prod.mk kv.1) (dedupBy_fnSame_eq kv.2)
    have he : (fun (kv : String × List Error) => (kv.1, dedupBy errSame kv.2)) =
        fun kv => (kv.1, dropAdjDup errSame kv.2) :=
      funext fun kv => congrArg (Prod.mk kv.1) (dedupBy_errSame_eq kv.2)
    have hv : (fun (kv : String × List Event) => (kv.1, dedupBy evSame kv.2)) =
        fun kv => (kv.1, dropAdjDup evSame kv.2) :=
      funext fun kv => congrArg (Prod.mk kv.1) (dedupBy_evSame_eq kv.2)
    simp only [dedupAbiTotal, dedupBucketsTotal, hf, he, hv]
  · intro a b
    simp [fnSame, fnKey]

/-- Document for the C1 witness: a bucket with an adjacent canonical
duplicate and a surviving overload. -/
def exDocC1 : JsonAbi := mkDoc [("transfer", [exTransferA, exTransferA', exTransferB])]

theorem c1_witness :
    wfAbi exDocC1 = true ∧
    dedup_abi exDocC1 = some (mkDoc [("transfer", [exTransferA, exTransferB])]) :=
  ⟨by decide, by
    rw [(c1_dedup_drops_adjacent_canonical_duplicates exDocC1 (by decide)).1]
    decide⟩

/-- C2: for every input document whose ABI field is absent, `expand`
returns (for every behaviour of its collaborators) an error whose message
mentions "ABI not found", and no output tokens are produced (the result
is an `Except.error`, never an `Except.ok`). -/
theorem c2_missing_abi_is_error (deps : ExpandDeps) (name : String)
    (json : ContractObject) (attrs : List String) (h : json.abi = none) :
    expand deps name json attrs = some (.error ⟨name, abiNotFoundMsg⟩) ∧
    strHasSub abiNotFoundMsg "ABI not found" = true := by
  refine ⟨?_, by decide⟩
  have hA : expandAssemble deps name json attrs = some (.error ⟨name, abiNotFoundMsg⟩) := by
    unfold expandAssemble
    rw [h]
  unfold expand
  rw [hA]

/-- Contract object without an `abi` field. -/
def exNoAbiJson : ContractObject := ⟨none, some "0x60", none⟩

/-- Collaborators that always succeed, rendering a braced body. -/
def exDepsOk : ExpandDeps :=
  ⟨fun _ _ => "\x7b\x7d", fun _ => .ok (), fun _ => .ok (), fun _ => .ok "", fun _ => ""⟩

theorem c2_witness :
    expand exDepsOk "MyContract" exNoAbiJson [] =
      some (.error ⟨"MyContract", abiNotFoundMsg⟩) ∧
    strHasSub abiNotFoundMsg "ABI not found" = true :=
  c2_missing_abi_is_error exDepsOk "MyContract" exNoAbiJson [] rfl

/-- C6: normalization is idempotent: applying it twice yields the same
document as applying it once, both for the assert-free normalizer
(`dedupAbiTotal`) and for the faithful `dedup_abi` (whenever the first
application succeeds, the second succeeds and changes nothing). -/
theorem c6_normalize_idempotent (abi : JsonAbi) :
    dedupAbiTotal (dedupAbiTotal abi) = dedupAbiTotal abi ∧
    ∀ out, dedup_abi abi = some out → dedup_abi out = some out := by
  constructor
  · simp only [dedupAbiTotal]
    rw [dedupBucketsTotal_idem, dedupBucketsTotal_idem, dedupBucketsTotal_idem]
  · exact fun out h => dedup_abi_rerun abi out h

/-- Document for the C6 witness, with an adjacent duplicate. -/
def exDocC6 : JsonAbi := mkDoc [("transfer", [exTransferA, exTransferA, exTransferB])]

/-- Normal form of `exDocC6`. -/
def exDocC6' : JsonAbi := mkDoc [("transfer", [exTransferA, exTransferB])]

theorem c6_witness : dedup_abi exDocC6' = some exDocC6' :=
  (c6_normalize_idempotent exDocC6).2 exDocC6' (by decide)

/-- C9: normalization cannot fail on any well-formed `AbiDocument`: the
`assert_eq!` never fires (`dedup_abi` returns `some`), and every bucket —
in particular one that is empty after dedup — remains present under its
name: the name sequences of all three bucket maps are unchanged. -/
theorem c9_normalize_cannot_fail (abi : JsonAbi) (h : wfAbi abi = true) :
    dedup_abi abi = some (dedupAbiTotal abi) ∧
    (dedupAbiTotal abi).functions.map Prod.fst = abi.functions.map Prod.fst ∧
    (dedupAbiTotal abi).errors.map Prod.fst = abi.errors.map Prod.fst ∧
    (dedupAbiTotal abi).events.map Prod.fst = abi.events.map Prod.fst :=
  ⟨dedup_abi_eq_total abi h,
    dedupBucketsTotal_keys fnSame abi.functions,
    dedupBucketsTotal_keys errSame abi.errors,
    dedupBucketsTotal_keys evSame abi.events⟩

/-- Document for the C9 witness, including an empty bucket. -/
def exDocC9 : JsonAbi :=
  ⟨none, none, none, [("transfer", [exTransferA, exTransferA]), ("empty", [])], [], []⟩

theorem c9_witness : dedup_abi exDocC9 = some (dedupAbiTotal exDocC9) :=
  (c9_normalize_cannot_fail exDocC9 (by decide)).1

/-- C10: normalization only shrinks the entry sequences inside the
functions, errors and events buckets: constructor, fallback and receive
are unchanged, the bucket-name sequences are unchanged, and each
output bucket is a subsequence of the corresponding input bucket in the
original relative order. -/
theorem c10_normalize_frame (abi out : JsonAbi) (h : dedup_abi abi = some out) :
    out.constructor_ = abi.constructor_ ∧
    out.fallback = abi.fallback ∧
    out.receive = abi.receive ∧
    out.functions.map Prod.fst = abi.functions.map Prod.fst ∧
    out.errors.map Prod.fst = abi.errors.map Prod.fst ∧
    out.events.map Prod.fst = abi.events.map Prod.fst ∧
    List.Forall₂ (fun kv kv' => kv.1 = kv'.1 ∧ kv.2.Sublist kv'.2)
      out.functions abi.functions ∧
    List.Forall₂ (fun kv kv' => kv.1 = kv'.1 ∧ kv.2.Sublist kv'.2)
      out.errors abi.errors ∧
    List.Forall₂ (fun kv kv' => kv.1 = kv'.1 ∧ kv.2.Sublist kv'.2)
      out.events abi.events := by
  have heq := dedup_abi_some_eq_total abi out h
  subst heq
  refine ⟨rfl, rfl, rfl, dedupBucketsTotal_keys fnSame abi.functions,
    dedupBucketsTotal_keys errSame abi.errors,
    dedupBucketsTotal_keys evSame abi.events, ?_, ?_, ?_⟩
  · exact listForall₂_map_self _ _ (fun kv => ⟨rfl, dedupBy_sublist fnSame kv.2⟩)
      abi.functions
  · exact listForall₂_map_self _ _ (fun kv => ⟨rfl, dedupBy_sublist errSame kv.2⟩)
      abi.errors
  · exact listForall₂_map_self _ _ (fun kv => ⟨rfl, dedupBy_sublist evSame kv.2⟩)
      abi.events

/-- Document for the C10 witness. -/
def exDocC10 : JsonAbi := mkDoc [("transfer", [exTransferA, exTransferA])]

theorem c10_witness :
    (mkDoc [("transfer", [exTransferA])]).constructor_ = exDocC10.constructor_ :=
  (c10_normalize_frame exDocC10 (mkDoc [("transfer", [exTransferA])]) (by decide)).1

theorem expandAssemble_solAttrs (deps : ExpandDeps) (name : String)
    (json : ContractObject) (attrs : List String) (asm : AssembledDecl)
    (h : expandAssemble deps name json attrs = some (.ok asm)) :
    asm.solAttrs = solAttrPairs json.bytecode json.deployedBytecode := by
  unfold expandAssemble at h
  split at h
  · exact absurd h (by simp)
  · split at h
    · exact absurd h (by simp)
    · split at h
      · exact absurd h (by simp)
      · simp only [Option.some.injEq, Except.ok.injEq] at h
        rw [← h]

/-- C7: whenever `expand` reaches the assembly stage, the assembled
declaration's `#[sol(...)]` attribute contains a `bytecode = "<hex>"`
pair whose hex string is exactly the supplied blob (case preserved, as
blobs are carried as opaque hex strings) precisely when the input
carries a bytecode blob, and likewise for `deployed_bytecode`; when a
blob is absent the corresponding key is absent from the attribute. -/
theorem c7_bytecode_passthrough (deps : ExpandDeps) (name : String)
    (json : ContractObject) (attrs : List String) (asm : AssembledDecl)
    (h : expandAssemble deps name json attrs = some (.ok asm)) :
    (∀ s, json.bytecode = some s → ("bytecode", s) ∈ asm.solAttrs) ∧
    (json.bytecode = none → ∀ v, ("bytecode", v) ∉ asm.solAttrs) ∧
    (∀ s, json.deployedBytecode = some s → ("deployed_bytecode", s) ∈ asm.solAttrs) ∧
    (json.deployedBytecode = none → ∀ v, ("deployed_bytecode", v) ∉ asm.solAttrs) := by
  have hattrs := expandAssemble_solAttrs deps name json attrs asm h
  refine ⟨?_, ?_, ?_, ?_⟩
  · intro s hs
    rw [hattrs, hs]
    cases json.deployedBytecode <;> simp [solAttrPairs]
  · intro hn v
    rw [hattrs, hn]
    cases json.deployedBytecode <;> simp [solAttrPairs]
  · intro s hs
    rw [hattrs, hs]
    cases json.bytecode <;> simp [solAttrPairs]
  · intro hn v
    rw [hattrs, hn]
    cases json.bytecode <;> simp [solAttrPairs]

/-- Contract object carrying a mixed-case bytecode blob and no deployed
blob. -/
def exJsonC7 : ContractObject := ⟨some (mkDoc []), some "0xDEADbeef", none⟩

/-- The declaration `expand` assembles from `exJsonC7` under
`exDepsOk`. -/
def exAsmC7 : AssembledDecl :=
  ⟨[], mkDocStr "\x7b\x7d" "", [("bytecode", "0xDEADbeef")],
    ⟨"interface", "C7", "\x7b\x7d"⟩⟩

theorem c7_witness : ("bytecode", "0xDEADbeef") ∈ exAsmC7.solAttrs :=
  (c7_bytecode_passthrough exDepsOk "C7" exJsonC7 [] exAsmC7 rfl).1 "0xDEADbeef" rfl

/-- C8: on every internal-failure path — the rendered interface body has
no brace, the body from the brace on fails token parsing, or the
assembled declaration fails parsing into a Solidity AST — `expand`
returns an error (no tokens are produced) whose diagnostic states that
this is a bug, names the failing component (`JsonAbi::to_sol`, resp. the
ABI-generated tokens), and includes the text of the failure. -/
theorem c8_internal_invariant_errors (deps : ExpandDeps) (name : String)
    (json : ContractObject) (attrs : List String) (abi0 abi : JsonAbi) (sol : String)
    (habi : json.abi = some abi0) (hd : dedup_abi abi0 = some abi)
    (hsol : sol = deps.toSol name abi) :
    (findBrace sol = none →
      expand deps name json attrs = some (.error ⟨name, mkSolErrMsg missingBraceText⟩) ∧
      strHasSub (mkSolErrMsg missingBraceText) "is a bug" = true ∧
      strHasSub (mkSolErrMsg missingBraceText) "JsonAbi::to_sol" = true ∧
      strHasSub (mkSolErrMsg missingBraceText) missingBraceText = true) ∧
    (∀ i e, findBrace sol = some i →
      deps.parseTokenStream (sliceFrom sol i) = .error e →
      expand deps name json attrs = some (.error ⟨name, mkSolErrMsg e⟩) ∧
      strHasSub (mkSolErrMsg e) "is a bug" = true ∧
      strHasSub (mkSolErrMsg e) "JsonAbi::to_sol" = true ∧
      strHasSub (mkSolErrMsg e) e = true) ∧
    (∀ asm e, expandAssemble deps name json attrs = some (.ok asm) →
      deps.parseFile asm = .error e →
      expand deps name json attrs = some (.error ⟨name, astErrMsg e⟩) ∧
      strHasSub (astErrMsg e) "is a bug" = true ∧
      strHasSub (astErrMsg e) "ABI-generated tokens" = true ∧
      strHasSub (astErrMsg e) e = true) := by
  refine ⟨?_, ?_, ?_⟩
  · intro hbrace
    have hA : expandAssemble deps name json attrs =
        some (.error ⟨name, mkSolErrMsg missingBraceText⟩) := by
      simp only [expandAssemble, abi_to_sol, tokens_for_sol, habi, hd, ← hsol, hbrace]
    refine ⟨by simp only [expand, hA], ?_, ?_, ?_⟩
    · exact strHasSub_of_right _ _ _ (by decide)
    · exact strHasSub_of_left _ _ _ (strHasSub_of_left _ _ _ (by decide))
    · exact strHasSub_sandwich _ _ _
  · intro i e hbrace hparse
    have hA : expandAssemble deps name json attrs =
        some (.error ⟨name, mkSolErrMsg e⟩) := by
      simp only [expandAssemble, abi_to_sol, tokens_for_sol, habi, hd, ← hsol, hbrace,
        hparse]
    refine ⟨by simp only [expand, hA], ?_, ?_, ?_⟩
    · exact strHasSub_of_right _ _ _ (by decide)
    · exact strHasSub_of_left _ _ _ (strHasSub_of_left _ _ _ (by decide))
    · exact strHasSub_sandwich _ _ _
  · intro asm e hasm hparse
    refine ⟨by simp only [expand, hasm, hparse], ?_, ?_, ?_⟩
    · exact strHasSub_of_right _ _ _ (by decide)
    · exact strHasSub_of_left _ _ _ (strHasSub_of_left _ _ _ (by decide))
    · exact strHasSub_sandwich _ _ _

/-- Collaborators whose renderer emits a body without any brace. -/
def exDepsNoBrace : ExpandDeps :=
  ⟨fun _ _ => "nobrace", fun _ => .ok (), fun _ => .ok (), fun _ => .ok "", fun _ => ""⟩

/-- Contract object with an empty ABI for the C8 witness. -/
def exJsonC8 : ContractObject := ⟨some (mkDoc []), none, none⟩

theorem c8_witness :
    expand exDepsNoBrace "C8" exJsonC8 [] =
      some (.error ⟨"C8", mkSolErrMsg missingBraceText⟩) ∧
    strHasSub (mkSolErrMsg missingBraceText) "is a bug" = true ∧
    strHasSub (mkSolErrMsg missingBraceText) "JsonAbi::to_sol" = true ∧
    strHasSub (mkSolErrMsg missingBraceText) missingBraceText = true :=
  (c8_internal_invariant_errors exDepsNoBrace "C8" exJsonC8 [] (mkDoc []) (mkDoc [])
    "nobrace" rfl rfl rfl).1 rfl

theorem dropAdjGo_cons_neg {α : Type*} (same : α → α → Bool) (p b : α) (l : List α)
    (h : same b p = false) : dropAdjGo same p (b :: l) = b :: dropAdjGo same b l := by
  simp only [dropAdjGo, h, Bool.false_eq_true, if_false]

theorem dropAdjGo_cons_pos {α : Type*} (same : α → α → Bool) (p b : α) (l : List α)
    (h : same b p = true) : dropAdjGo same p (b :: l) = dropAdjGo same b l := by
  simp only [dropAdjGo, h, if_true]

theorem dedupBy_key_split {α β : Type*} [BEq β] [LawfulBEq β] (key : α → β)
    (v₁ : List α) (a : α) (l₂ : List α) :
    dedupBy (fun x y => key x == key y) (v₁ ++ a :: l₂) =
      dedupBy (fun x y => key x == key y) (v₁ ++ [a]) ++
        dropAdjGo (fun x y => key x == key y) a l₂ := by
  rw [dedupBy_eq_dropAdjDup key, dedupBy_eq_dropAdjDup key]
  cases v₁ with
  | nil => simp [dropAdjDup, dropAdjGo]
  | cons x xs =>
    rw [show ((x :: xs) ++ a :: l₂) = x :: ((xs ++ [a]) ++ l₂) by simp]
    rw [dropAdjDup_append _ x (xs ++ [a]) l₂, List.getLastD_concat]
    rfl

theorem dedupBy_fnSame_split (v₁ : List Function) (a : Function) (l₂ : List Function) :
    dedupBy fnSame (v₁ ++ a :: l₂) =
      dedupBy fnSame (v₁ ++ [a]) ++ dropAdjGo fnSame a l₂ :=
  dedupBy_key_split fnKey v₁ a l₂

theorem fnSame_refl (a : Function) : fnSame a a = true := by simp [fnSame]

theorem dedup_abi_bucket_mem (abi out : JsonAbi) (h : dedup_abi abi = some out)
    (k : String) (v : List Function) (hm : (k, v) ∈ abi.functions) :
    (k, dedupBy fnSame v) ∈ out.functions := by
  have heq := dedup_abi_some_eq_total abi out h
  subst heq
  exact List.mem_map.mpr ⟨(k, v), hm, rfl⟩

/-- Document refuting C3 as stated: the bucket head is canonically equal
to (but a distinct value from) the second entry. -/
def exDocC3 : JsonAbi := mkDoc [("transfer", [exTransferA, exTransferA', exTransferB])]

/-- C3 is false as universally stated: in the transfer bucket of
`exDocC3` the second and third entries are adjacent, share the name
`transfer` and differ in canonical input-type string, yet the second
entry does not survive normalization — it is dropped as a canonical
duplicate of the bucket head, and no entry equal to it remains. -/
theorem c3_counterexample :
    exTransferA'.name = "transfer" ∧ exTransferB.name = "transfer" ∧
    fnSame exTransferA' exTransferB = false ∧
    exDocC3.functions = [("transfer", [exTransferA, exTransferA', exTransferB])] ∧
    dedup_abi exDocC3 = some (mkDoc [("transfer", [exTransferA, exTransferB])]) ∧
    exTransferA' ∉ [exTransferA, exTransferB] := by decide

/-- C3 (amended): if two adjacent same-named entries of a bucket differ
in canonical input-type string, the later one always survives
normalization; the earlier one also survives — so both survive — when it
heads the bucket or itself differs canonically from its immediate
predecessor. -/
theorem c3_amended_overload_preservation (abi out : JsonAbi) (k : String)
    (v₁ : List Function) (a b : Function) (v₂ : List Function)
    (hout : dedup_abi abi = some out)
    (hmem : (k, v₁ ++ a :: b :: v₂) ∈ abi.functions)
    (_hname : a.name = b.name)
    (hdiff : fnSame b a = false) :
    (k, dedupBy fnSame (v₁ ++ [a]) ++ b :: dropAdjGo fnSame b v₂) ∈ out.functions ∧
    (v₁ = [] → (k, a :: b :: dropAdjGo fnSame b v₂) ∈ out.functions) ∧
    (∀ w p, v₁ = w ++ [p] → fnSame a p = false →
      (k, dedupBy fnSame (w ++ [p]) ++ a :: b :: dropAdjGo fnSame b v₂) ∈
        out.functions) := by
  have hbase := dedup_abi_bucket_mem abi out hout k (v₁ ++ a :: b :: v₂) hmem
  rw [dedupBy_fnSame_split v₁ a (b :: v₂), dropAdjGo_cons_neg fnSame a b v₂ hdiff]
    at hbase
  refine ⟨hbase, ?_, ?_⟩
  · intro hv
    subst hv
    simpa using hbase
  · intro w p hv hp
    subst hv
    rw [show ((w ++ [p]) ++ [a]) = w ++ p :: [a] by simp,
      dedupBy_fnSame_split w p [a],
      dropAdjGo_cons_neg fnSame p a [] hp] at hbase
    simpa [List.append_assoc] using hbase

/-- Document for the C3 amended witness: a two-entry overload bucket. -/
def exDocC3w : JsonAbi := mkDoc [("transfer", [exTransferA, exTransferB])]

theorem c3_amended_witness :
    ("transfer", [exTransferA, exTransferB]) ∈
      (mkDoc [("transfer", [exTransferA, exTransferB])]).functions :=
  (c3_amended_overload_preservation exDocC3w
    (mkDoc [("transfer", [exTransferA, exTransferB])])
    "transfer" [] exTransferA exTransferB [] (by decide) (by decide) rfl
    (by decide)).2.1 rfl

/-- Document refuting C4 as stated: an identical adjacent pair preceded
by a canonically equal but value-distinct entry. -/
def exDocC4 : JsonAbi := mkDoc [("transfer", [exTransferA', exTransferA, exTransferA])]

/-- C4 is false as universally stated: the transfer bucket of `exDocC4`
contains two adjacent fully identical entries (the second and third), yet
after normalization neither of them remains in the bucket — it collapses
to the value-distinct head alone, so zero (not exactly one) of the pair
is left. -/
theorem c4_counterexample :
    exDocC4.functions = [("transfer", [exTransferA', exTransferA, exTransferA])] ∧
    dedup_abi exDocC4 = some (mkDoc [("transfer", [exTransferA'])]) ∧
    exTransferA ∉ [exTransferA'] := by decide

/-- C4 (amended): of two adjacent identical entries the later is always
dropped — normalizing the bucket equals normalizing it with the later
copy removed — and exactly one of the pair remains provided the earlier
copy is the bucket's first entry (third conjunct) or differs canonically
from its immediate predecessor (fourth conjunct); otherwise both copies
are dropped in favor of the earlier canonically equal entry (fifth
conjunct: neither copy appears in the exhibited normal form). -/
theorem c4_amended_adjacent_identical (abi out : JsonAbi) (k : String)
    (v₁ : List Function) (a : Function) (v₂ : List Function)
    (hout : dedup_abi abi = some out)
    (hmem : (k, v₁ ++ a :: a :: v₂) ∈ abi.functions) :
    dedupBy fnSame (v₁ ++ a :: a :: v₂) = dedupBy fnSame (v₁ ++ a :: v₂) ∧
    (k, dedupBy fnSame (v₁ ++ a :: v₂)) ∈ out.functions ∧
    (v₁ = [] → (k, a :: dropAdjGo fnSame a v₂) ∈ out.functions) ∧
    (∀ w p, v₁ = w ++ [p] → fnSame a p = false →
      (k, dedupBy fnSame (w ++ [p]) ++ a :: dropAdjGo fnSame a v₂) ∈ out.functions) ∧
    (∀ w p, v₁ = w ++ [p] → fnSame a p = true →
      (k, dedupBy fnSame (w ++ [p]) ++ dropAdjGo fnSame a v₂) ∈ out.functions) := by
  have heq : dedupBy fnSame (v₁ ++ a :: a :: v₂) = dedupBy fnSame (v₁ ++ a :: v₂) := by
    rw [dedupBy_fnSame_split v₁ a (a :: v₂), dedupBy_fnSame_split v₁ a v₂,
      dropAdjGo_cons_pos fnSame a a v₂ (fnSame_refl a)]
  have hbase := dedup_abi_bucket_mem abi out hout k (v₁ ++ a :: a :: v₂) hmem
  rw [heq] at hbase
  refine ⟨heq, hbase, ?_, ?_, ?_⟩
  · intro hv
    subst hv
    rw [show (([] : List Function) ++ a :: v₂) = a :: v₂ by simp,
      dedupBy_fnSame_eq] at hbase
    simpa [dropAdjDup] using hbase
  · intro w p hv hp
    subst hv
    rw [dedupBy_fnSame_split (w ++ [p]) a v₂,
      show ((w ++ [p]) ++ [a]) = w ++ p :: [a] by simp,
      dedupBy_fnSame_split w p [a],
      dropAdjGo_cons_neg fnSame p a [] hp] at hbase
    simpa [List.append_assoc, dropAdjGo] using hbase
  · intro w p hv hp
    subst hv
    rw [dedupBy_fnSame_split (w ++ [p]) a v₂,
      show ((w ++ [p]) ++ [a]) = w ++ p :: [a] by simp,
      dedupBy_fnSame_split w p [a],
      dropAdjGo_cons_pos fnSame p a [] hp] at hbase
    simpa [List.append_assoc, dropAdjGo] using hbase

/-- Document for the C4 amended witness: a bucket that is exactly an
identical adjacent pair. -/
def exDocC4w : JsonAbi := mkDoc [("transfer", [exTransferA, exTransferA])]

theorem c4_amended_witness :
    ("transfer", [exTransferA]) ∈ (mkDoc [("transfer", [exTransferA])]).functions :=
  (c4_amended_adjacent_identical exDocC4w (mkDoc [("transfer", [exTransferA])])
    "transfer" [] exTransferA [] (by decide) (by decide)).2.2.1 rfl

/-- Document refuting C5 as stated: two equal entries (second and
fourth), non-adjacent and separated by an entry differing from them, the
first of the pair preceded by a canonically equal but value-distinct
head. -/
def exDocC5 : JsonAbi :=
  mkDoc [("transfer", [exTransferA', exTransferA, exTransferB, exTransferA])]

/-- C5 is false as universally stated: in the transfer bucket of
`exDocC5` the two occurrences of `exTransferA` are non-adjacent and
separated by `exTransferB`, which differs from them, yet only one of the
two survives normalization — the earlier occurrence is dropped as an
adjacent canonical duplicate of the bucket head. -/
theorem c5_counterexample :
    exDocC5.functions =
      [("transfer", [exTransferA', exTransferA, exTransferB, exTransferA])] ∧
    fnSame exTransferB exTransferA = false ∧
    dedup_abi exDocC5 =
      some (mkDoc [("transfer", [exTransferA', exTransferB, exTransferA])]) ∧
    List.count exTransferA [exTransferA', exTransferB, exTransferA] = 1 ∧
    List.count exTransferA [exTransferA', exTransferA, exTransferB, exTransferA] = 2 :=
  by decide

/-- C5 (amended): only adjacent canonical duplicates are ever collapsed
(the whole bucket normalizes to the immediate-predecessor dropper
`dropAdjDup`, first conjunct), and two equal non-adjacent entries both
survive provided each is the bucket's first entry or differs canonically
from its immediate predecessor: the later always survives under
`hlast` (second conjunct), and the earlier survives too when it heads
the bucket (third conjunct) or differs canonically from its own
immediate predecessor (fourth conjunct). -/
theorem c5_amended_nonadjacent_duplicates (abi out : JsonAbi) (k : String)
    (v₁ : List Function) (e : Function) (v₂ v₃ : List Function)
    (hout : dedup_abi abi = some out)
    (hmem : (k, v₁ ++ e :: v₂ ++ e :: v₃) ∈ abi.functions)
    (_hsep : v₂ ≠ [])
    (hlast : fnSame e (v₂.getLastD e) = false) :
    dedupBy fnSame (v₁ ++ e :: v₂ ++ e :: v₃) =
      dropAdjDup fnSame (v₁ ++ e :: v₂ ++ e :: v₃) ∧
    (k, dedupBy fnSame (v₁ ++ [e]) ++
      (dropAdjGo fnSame e v₂ ++ e :: dropAdjGo fnSame e v₃)) ∈ out.functions ∧
    (v₁ = [] →
      (k, e :: (dropAdjGo fnSame e v₂ ++ e :: dropAdjGo fnSame e v₃)) ∈
        out.functions) ∧
    (∀ w p, v₁ = w ++ [p] → fnSame e p = false →
      (k, dedupBy fnSame (w ++ [p]) ++
        e :: (dropAdjGo fnSame e v₂ ++ e :: dropAdjGo fnSame e v₃)) ∈
          out.functions) := by
  have hbase := dedup_abi_bucket_mem abi out hout k (v₁ ++ e :: v₂ ++ e :: v₃) hmem
  rw [show (v₁ ++ e :: v₂ ++ e :: v₃) = v₁ ++ e :: (v₂ ++ e :: v₃) by simp] at hbase
  rw [dedupBy_fnSame_split v₁ e (v₂ ++ e :: v₃),
    dropAdjGo_append fnSame v₂ (e :: v₃) e,
    dropAdjGo_cons_neg fnSame (v₂.getLastD e) e v₃ hlast] at hbase
  refine ⟨dedupBy_fnSame_eq _, hbase, ?_, ?_⟩
  · intro hv
    subst hv
    simpa using hbase
  · intro w p hv hp
    subst hv
    rw [show ((w ++ [p]) ++ [e]) = w ++ p :: [e] by simp,
      dedupBy_fnSame_split w p [e],
      dropAdjGo_cons_neg fnSame p e [] hp] at hbase
    simpa [List.append_assoc, dropAdjGo] using hbase

/-- Document for the C5 amended witness: equal entries at the head and
the end, separated by a differing overload. -/
def exDocC5w : JsonAbi :=
  mkDoc [("transfer", [exTransferA, exTransferB, exTransferA])]

theorem c5_amended_witness :
    ("transfer", [exTransferA, exTransferB, exTransferA]) ∈
      (mkDoc [("transfer", [exTransferA, exTransferB, exTransferA])]).functions :=
  (c5_amended_nonadjacent_duplicates exDocC5w
    (mkDoc [("transfer", [exTransferA, exTransferB, exTransferA])])
    "transfer" [] exTransferA [exTransferB] [] (by decide) (by decide) (by decide)
    (by decide)).2.2.1 rfl

end AbiGen
